import Mathlib

/-!
Shallow embedding of the compositor core of the `blitter-blaster` repository
(`src/engine/bitmap.rs`, `src/engine/camera.rs`, `src/engine/collision.rs`).

Machine floats (`f32`) are modelled as exact rationals; the Rust `as i32` /
`as i64` casts on finite in-range values are modelled as truncation toward
zero.  Rust's `%` on `i32` is truncated remainder, i.e. `Int.tmod`.
-/

/-- Truncation toward zero: the semantics of Rust's `as i32` / `as i64`
float-to-int casts for finite in-range values. -/
def truncQ (q : ℚ) : ℤ := if 0 ≤ q then ⌊q⌋ else ⌈q⌉

/-- A depth value (`transform.translation.z`) is an `f32`: either a finite
value, modelled exactly as a rational, or `f32::INFINITY`, the only
non-finite value this program ever stores in a transform (used by the fade
bundles).  `z.is_finite()` is `false` exactly on the `inf` case. -/
inductive Depth where
  | finite (q : ℚ)
  | inf
deriving DecidableEq

/-- The raster dimensions of a `Bitmap` (`src/engine/bitmap.rs`).  Pixel
contents are irrelevant to tiling and indexing, which use only
`Bitmap::width` and `Bitmap::height`. -/
structure Bitmap where
  width : ℕ
  height : ℕ
deriving DecidableEq

/-- The sequence of offsets yielded by a `TileIter` (`src/engine/bitmap.rs`
lines 26-31 and 199-212): starting from `c`, yield the current offset and
advance by `step` while the current offset is below `e`.  The `fuel`
argument only bounds the recursion depth; any fuel of at least
`(e - c).toNat` produces the same list (`tileIterAux_congr`). -/
def tileIterAux : ℕ → ℤ → ℤ → ℤ → List ℤ
  | 0, _, _, _ => []
  | fuel + 1, c, step, e => if c < e then c :: tileIterAux fuel (c + step) step e else []

/-- The full yielded sequence of a `TileIter` with initial `current = c`. -/
def tileRangeFrom (c step e : ℤ) : List ℤ := tileIterAux (e - c).toNat c step e

/-- The starting offset computed by `Bitmap::tile_cols` / `Bitmap::tile_rows`
(`src/engine/bitmap.rs` lines 180-196): `current = start % step` with Rust
`%` (truncated remainder), then one `step` subtracted when `current > 0`. -/
def firstTile (start step : ℤ) : ℤ :=
  if Int.tmod start step > 0 then Int.tmod start step - step else Int.tmod start step

/-- The offset sequence produced by `Bitmap::tile_cols(start, width)` with
`step` the bitmap raster width and `e` the viewport extent (`tile_rows` is
the same with the heights). -/
def tileRange (start step e : ℤ) : List ℤ := tileRangeFrom (firstTile start step) step e

/-- `Bitmap::tile_cols` from `src/engine/bitmap.rs` lines 189-196. -/
def Bitmap.tile_cols (b : Bitmap) (start : ℤ) (width : ℕ) : List ℤ :=
  tileRange start b.width width

/-- `Bitmap::tile_rows` from `src/engine/bitmap.rs` lines 180-187. -/
def Bitmap.tile_rows (b : Bitmap) (start : ℤ) (height : ℕ) : List ℤ :=
  tileRange start b.height height

/-! Helper lemmas about the tile iterator. -/

theorem tileIterAux_stop (n : ℕ) (c step e : ℤ) (h : ¬ c < e) :
    tileIterAux n c step e = [] := by
  cases n with
  | zero => rfl
  | succ n => simp [tileIterAux, h]

theorem tileIterAux_congr (step e : ℤ) (hstep : 0 < step) :
    ∀ n m c, (e - c).toNat ≤ n → (e - c).toNat ≤ m →
      tileIterAux n c step e = tileIterAux m c step e := by
  intro n
  induction n with
  | zero =>
    intro m c hn _
    have hce : ¬ c < e := by omega
    rw [tileIterAux_stop _ _ _ _ hce, tileIterAux_stop _ _ _ _ hce]
  | succ n ih =>
    intro m c hn hm
    by_cases hce : c < e
    · cases m with
      | zero => exact absurd hm (by omega)
      | succ m =>
        simp only [tileIterAux, hce, if_pos]
        rw [ih m (c + step) (by omega) (by omega)]
    · rw [tileIterAux_stop _ _ _ _ hce, tileIterAux_stop _ _ _ _ hce]

theorem tileRangeFrom_unfold (c step e : ℤ) (hstep : 0 < step) :
    tileRangeFrom c step e =
      if c < e then c :: tileRangeFrom (c + step) step e else [] := by
  by_cases hce : c < e
  · have hk : ∃ k, (e - c).toNat = k + 1 := ⟨(e - c).toNat - 1, by omega⟩
    obtain ⟨k, hk⟩ := hk
    rw [if_pos hce]
    show tileIterAux (e - c).toNat c step e = c :: tileRangeFrom (c + step) step e
    rw [hk]
    simp only [tileIterAux, hce, if_pos]
    exact congrArg (c :: ·)
      (tileIterAux_congr step e hstep k (e - (c + step)).toNat (c + step)
        (by omega) (by omega))
  · rw [if_neg hce]
    exact tileIterAux_stop _ _ _ _ hce

theorem tileIterAux_getElem (step e : ℤ) :
    ∀ n c i (hi : i < (tileIterAux n c step e).length),
      (tileIterAux n c step e)[i] = c + step * i := by
  intro n
  induction n with
  | zero => intro c i hi; simp [tileIterAux] at hi
  | succ n ih =>
    intro c i hi
    by_cases hce : c < e
    · simp only [tileIterAux, hce, if_pos] at hi ⊢
      cases i with
      | zero => simp
      | succ i =>
        rw [List.getElem_cons_succ]
        rw [ih (c + step) i (by simpa using hi)]
        push_cast
        ring
    · rw [tileIterAux_stop _ _ _ _ hce] at hi
      simp at hi

theorem tileIterAux_mem_lt (step e : ℤ) :
    ∀ n c, ∀ x ∈ tileIterAux n c step e, x < e := by
  intro n
  induction n with
  | zero => intro c x hx; simp [tileIterAux] at hx
  | succ n ih =>
    intro c x hx
    by_cases hce : c < e
    · simp only [tileIterAux, hce, if_pos, List.mem_cons] at hx
      rcases hx with rfl | hx
      · exact hce
      · exact ih (c + step) x hx
    · rw [tileIterAux_stop _ _ _ _ hce] at hx
      simp at hx

theorem neg_tmod_eq (a b : ℤ) : Int.tmod (-a) b = - Int.tmod a b := by
  rw [Int.tmod_def, Int.tmod_def, Int.neg_tdiv]
  ring

theorem tmod_bounds (a b : ℤ) (hb : 0 < b) :
    -b < Int.tmod a b ∧ Int.tmod a b < b := by
  refine ⟨?_, Int.tmod_lt_of_pos _ hb⟩
  rcases le_or_lt 0 a with ha | ha
  · have h0 := Int.tmod_nonneg b ha
    omega
  · have h1 := neg_tmod_eq (-a) b
    rw [neg_neg] at h1
    have h2 : Int.tmod (-a) b < b := Int.tmod_lt_of_pos _ hb
    have h3 : 0 ≤ Int.tmod (-a) b := Int.tmod_nonneg b (by omega)
    omega

theorem firstTile_bounds (start step : ℤ) (h : 0 < step) :
    -step < firstTile start step ∧ firstTile start step ≤ 0 := by
  have hb := tmod_bounds start step h
  by_cases h' : Int.tmod start step > 0 <;> simp only [firstTile, h', if_pos, if_neg,
    not_true, not_false_iff, ite_true, ite_false] <;> omega

theorem dvd_tmod_sub (a b : ℤ) : b ∣ (Int.tmod a b - a) :=
  ⟨-(a.tdiv b), by rw [Int.tmod_def]; ring⟩

theorem firstTile_dvd_sub (start step : ℤ) : step ∣ (firstTile start step - start) := by
  by_cases h' : Int.tmod start step > 0
  · simp only [firstTile, h', ite_true]
    have h1 := dvd_tmod_sub start step
    have : Int.tmod start step - step - start = (Int.tmod start step - start) + step * (-1) := by
      ring
    rw [this]
    exact dvd_add h1 (Dvd.intro _ rfl)
  · simp only [firstTile, h', ite_false]
    exact dvd_tmod_sub start step

/-! Claims C4, C5, C10: the tile-range algorithm. -/

set_option maxRecDepth 10000 in
/-- C4: for every positive `step` and integers `start` and `e`, the
tile-range sequence is computed by taking `current = start % step`
(truncated remainder), subtracting `step` once when `current > 0`, and then
yielding `current, current + step, ...` while `current < e`.  Concretely,
for `step = 32`, `start = 10`, `e = 320`, the sequence starts at `-22` and
increments by 32 while below 320, and the yielded tiles cover `[-22, 320)`
with no gaps. -/
theorem C4_tile_range_algorithm (start step e : ℤ) (hstep : 0 < step) :
    tileRange start step e = tileRangeFrom (firstTile start step) step e
    ∧ firstTile start step =
        (if Int.tmod start step > 0 then Int.tmod start step - step
         else Int.tmod start step)
    ∧ (∀ c : ℤ, tileRangeFrom c step e =
        if c < e then c :: tileRangeFrom (c + step) step e else [])
    ∧ tileRange 10 32 320 = [-22, 10, 42, 74, 106, 138, 170, 202, 234, 266, 298]
    ∧ (∀ p : ℤ, -22 ≤ p → p < 320 →
        ∃ t ∈ tileRange 10 32 320, t ≤ p ∧ p < t + 32) := by
  refine ⟨rfl, rfl, fun c => tileRangeFrom_unfold c step e hstep, by decide, ?_⟩
  intro p h1 h2
  have hmem : p ∈ Finset.Ico (-22 : ℤ) 320 := Finset.mem_Ico.mpr ⟨h1, h2⟩
  have hlist : tileRange 10 32 320 = [-22, 10, 42, 74, 106, 138, 170, 202, 234, 266, 298] := by
    decide
  have key : ∀ q ∈ Finset.Ico (-22 : ℤ) 320,
      ∃ t ∈ ([-22, 10, 42, 74, 106, 138, 170, 202, 234, 266, 298] : List ℤ),
        t ≤ q ∧ q < t + 32 := by
    decide
  obtain ⟨t, ht, hcov⟩ := key p hmem
  exact ⟨t, by rw [hlist]; exact ht, hcov⟩

/-- C4 witness: the theorem applied at `start = 10`, `step = 32`,
`e = 320`. -/
theorem C4_witness :
    tileRange 10 32 320 = [-22, 10, 42, 74, 106, 138, 170, 202, 234, 266, 298] :=
  (C4_tile_range_algorithm 10 32 320 (by norm_num)).2.2.2.1

/-- C5 counterexample: for `start = 64`, `step = 32` (a start that is an
exact positive multiple of the step) the first value of the tile-range
sequence is `0`, not `start = 64` as the claim states. -/
theorem C5_counterexample :
    (tileRange 64 32 320).head? = some 0 ∧ (tileRange 64 32 320).head? ≠ some 64 := by
  decide

/-- C5 amended: for every `start` that is an exact multiple of `step` (with
`0 < step` and a positive viewport extent), the first value of the
tile-range sequence equals `0 = start % step` — there is no spurious
negative shift — and `start = 0` yields `0, 32, 64, ...`. -/
theorem C5_amended_first_tile (start step e : ℤ) (hstep : 0 < step) (he : 0 < e)
    (hdvd : step ∣ start) :
    firstTile start step = 0
    ∧ (tileRange start step e).head? = some 0
    ∧ tileRange 0 32 96 = [0, 32, 64] := by
  have hmod : Int.tmod start step = 0 := Int.tmod_eq_zero_of_dvd hdvd
  have hfirst : firstTile start step = 0 := by
    simp [firstTile, hmod]
  refine ⟨hfirst, ?_, by decide⟩
  show (tileRangeFrom (firstTile start step) step e).head? = some 0
  rw [hfirst, tileRangeFrom_unfold 0 step e hstep, if_pos he]
  rfl

/-- C5 witness: the amended theorem applied at `start = 64`, `step = 32`,
`e = 320`. -/
theorem C5_witness :
    firstTile 64 32 = 0
    ∧ (tileRange 64 32 320).head? = some 0
    ∧ tileRange 0 32 96 = [0, 32, 64] :=
  C5_amended_first_tile 64 32 320 (by norm_num) (by norm_num) (by norm_num)

/-- C10: for every positive `step` and every integer `start`, the starting
offset of the tile-range iterator lies in the half-open interval
`(-step, 0]`; when the viewport extent is positive it is also the first
yielded offset; every yielded offset is congruent to `start` modulo `step`;
and the `i`-th yielded offset is the starting offset plus `i * step`, so
consecutive yielded offsets differ by exactly `step`. -/
theorem C10_tile_iter_invariants (start step e : ℤ) (hstep : 0 < step) :
    (-step < firstTile start step ∧ firstTile start step ≤ 0)
    ∧ (0 < e → (tileRange start step e).head? = some (firstTile start step))
    ∧ (∀ x ∈ tileRange start step e, step ∣ x - start)
    ∧ (∀ i (hi : i < (tileRange start step e).length),
        (tileRange start step e)[i] = firstTile start step + step * i) := by
  obtain ⟨hlo, hhi⟩ := firstTile_bounds start step hstep
  refine ⟨⟨hlo, hhi⟩, ?_, ?_, ?_⟩
  · intro he
    show (tileRangeFrom (firstTile start step) step e).head? = _
    rw [tileRangeFrom_unfold _ step e hstep, if_pos (by omega)]
    rfl
  · intro x hx
    obtain ⟨i, hi, hget⟩ := List.mem_iff_getElem.mp hx
    have hval : x = firstTile start step + step * i := by
      rw [← hget]
      exact tileIterAux_getElem step e _ _ i hi
    have h1 : step ∣ firstTile start step - start := firstTile_dvd_sub start step
    have h2 : step ∣ step * (i : ℤ) := Dvd.intro _ rfl
    have : x - start = (firstTile start step - start) + step * (i : ℤ) := by
      rw [hval]; ring
    rw [this]
    exact dvd_add h1 h2
  · intro i hi
    exact tileIterAux_getElem step e _ _ i hi

/-- C10 witness: the theorem applied at `start = 10`, `step = 32`,
`e = 320`. -/
theorem C10_witness :
    ((-32 : ℤ) < firstTile 10 32 ∧ firstTile 10 32 ≤ 0)
    ∧ (0 < (320 : ℤ) → (tileRange 10 32 320).head? = some (firstTile 10 32)) :=
  ⟨(C10_tile_iter_invariants 10 32 320 (by norm_num)).1,
   (C10_tile_iter_invariants 10 32 320 (by norm_num)).2.1⟩

/-! The compositor's placement data and screen-position resolution. -/

/-- A drawable placement as the compositor consumes it (the `DrawableBitmap`
query tuple of `src/engine/bitmap.rs` lines 54-60): the entity id, the
bitmap, the transform translation, and whether the optional `Tiled` and
`ScreenSpace` marker components are present. -/
structure Placement where
  id : ℕ
  bitmap : Bitmap
  x : ℚ
  y : ℚ
  depth : Depth
  tiled : Bool
  screenSpace : Bool
deriving DecidableEq

/-- The sort key of `BitmapPlugin::update` line 100:
`(transform.translation.z * 1000.0) as i64`.  The cast truncates finite
values toward zero and saturates at `i64::MAX` for `f32::INFINITY`. -/
def zKey : Depth → ℤ
  | .finite q => truncQ (q * 1000)
  | .inf => 2 ^ 63 - 1

/-- The postcondition guaranteed by `Vec::sort_unstable_by_key` at
`src/engine/bitmap.rs` line 100: the output is a permutation of the input
that is ordered by the key.  The contract explicitly does not promise
stability (equal elements may be reordered). -/
def sortUnstablePost (input output : List Placement) : Prop :=
  output.Perm input ∧ output.Pairwise fun a b => zKey a.depth ≤ zKey b.depth

/-- Relative order of two elements in a list, by first occurrence. -/
def before (a b : Placement) (l : List Placement) : Prop :=
  a ∈ l ∧ b ∈ l ∧ l.indexOf a < l.indexOf b

instance (a b : Placement) (l : List Placement) : Decidable (before a b l) := by
  unfold before
  infer_instance

/-- Screen-position resolution of `BitmapPlugin::update`
(`src/engine/bitmap.rs` lines 103-116), given the camera translation
`(camX, camY)`: screen-space placements use their raw translation; world
placements subtract the camera translation scaled by the depth, with a
non-finite depth replaced by `1.0`; both coordinates are cast `as i32`. -/
def resolvePosition (camX camY : ℚ) (p : Placement) : ℤ × ℤ :=
  if p.screenSpace then (truncQ p.x, truncQ p.y)
  else
    let z : ℚ := match p.depth with
      | .finite q => q
      | .inf => 1
    (truncQ (p.x - camX * z), truncQ (p.y - camY * z))

/-! The spatial index rebuild (`src/engine/collision.rs`). -/

/-- An axis-aligned bounding box (`bvh_arena::volumes::Aabb<2>` built with
`Aabb::from_min_max`). -/
structure Aabb2 where
  minX : ℚ
  minY : ℚ
  maxX : ℚ
  maxY : ℚ
deriving DecidableEq

/-- `Bitmap::to_aabb` from `src/engine/collision.rs` lines 30-37: the box
from the transform translation to the translation plus the bitmap raster
dimensions. -/
def Bitmap.to_aabb (b : Bitmap) (x y : ℚ) : Aabb2 :=
  ⟨x, y, x + b.width, y + b.height⟩

/-- `CollisionPlugin::update` from `src/engine/collision.rs` lines 20-28:
the BVH is cleared (`bvh.clear()`, discarding `prev` entirely) and then one
entry is inserted per entity matched by `Query<(Entity, &Bitmap,
&Transform)>` — every placement with a bitmap and a transform, with no
filter on the `Tiled` or `ScreenSpace` markers. -/
def CollisionPlugin.update (_prev : List (ℕ × Aabb2)) (ps : List Placement) :
    List (ℕ × Aabb2) :=
  ps.map fun p => (p.id, p.bitmap.to_aabb p.x p.y)

/-! The visible-set construction (`src/engine/bitmap.rs` lines 83-93). -/

/-- One insertion into the `HashSet` of entity ids (`entities.insert` /
`entities.extend`): inserting an id that is already present leaves the set
unchanged. -/
def hsInsert (s : List ℕ) (x : ℕ) : List ℕ := if x ∈ s then s else x :: s

/-- The visible-set construction of `BitmapPlugin::update` lines 83-93: the
ids reported by the BVH overlap query against the camera box are inserted
into a `HashSet`, then all tiled ids, then all screen-space ids.  The list
models the set contents; the real `HashSet` iteration order is irrelevant
to the claims, which are stated up to permutation. -/
def buildEntities (overlaps tiledIds screenIds : List ℕ) : List ℕ :=
  List.foldl hsInsert (List.foldl hsInsert (List.foldl hsInsert [] overlaps) tiledIds)
    screenIds

theorem hsInsert_nodup (s : List ℕ) (x : ℕ) (h : s.Nodup) : (hsInsert s x).Nodup := by
  unfold hsInsert
  split
  · exact h
  · exact List.nodup_cons.mpr ⟨by assumption, h⟩

theorem mem_hsInsert (s : List ℕ) (x y : ℕ) : y ∈ hsInsert s x ↔ y = x ∨ y ∈ s := by
  unfold hsInsert
  split
  · rename_i hx
    constructor
    · exact Or.inr
    · rintro (rfl | hy)
      · exact hx
      · exact hy
  · exact List.mem_cons

theorem foldl_hsInsert_nodup :
    ∀ (l : List ℕ) (s : List ℕ), s.Nodup → (List.foldl hsInsert s l).Nodup := by
  intro l
  induction l with
  | nil => intro s hs; exact hs
  | cons x l ih => intro s hs; exact ih (hsInsert s x) (hsInsert_nodup s x hs)

theorem mem_foldl_hsInsert :
    ∀ (l : List ℕ) (s : List ℕ) (y : ℕ),
      y ∈ List.foldl hsInsert s l ↔ y ∈ s ∨ y ∈ l := by
  intro l
  induction l with
  | nil => intro s y; simp
  | cons x l ih =>
    intro s y
    rw [List.foldl_cons, ih (hsInsert s x) y, mem_hsInsert]
    constructor
    · rintro ((rfl | hy) | hy)
      · exact Or.inr (List.mem_cons_self _ _)
      · exact Or.inl hy
      · exact Or.inr (List.mem_cons_of_mem _ hy)
    · rintro (hy | hy)
      · exact Or.inl (Or.inr hy)
      · rcases List.mem_cons.mp hy with rfl | hy
        · exact Or.inl (Or.inl rfl)
        · exact Or.inr hy

/-! Claims C3, C2, C6. -/

/-- C3: a screen-space placement resolves to its raw translation truncated
to integers, independently of the camera translation; a world-space
placement resolves to `placement.xy - camera.translation.xy * depth`
(truncated), where a non-finite depth is replaced by a parallax factor of
exactly `1.0`. -/
theorem C3_resolve_position (camX camY camX' camY' : ℚ) (p : Placement) :
    (p.screenSpace = true →
      resolvePosition camX camY p = (truncQ p.x, truncQ p.y)
      ∧ resolvePosition camX camY p = resolvePosition camX' camY' p)
    ∧ (∀ z : ℚ, p.screenSpace = false → p.depth = .finite z →
        resolvePosition camX camY p =
          (truncQ (p.x - camX * z), truncQ (p.y - camY * z)))
    ∧ (p.screenSpace = false → p.depth = .inf →
        resolvePosition camX camY p =
          (truncQ (p.x - camX * 1), truncQ (p.y - camY * 1))) := by
  refine ⟨fun hs => ⟨?_, ?_⟩, fun z hs hd => ?_, fun hs hd => ?_⟩
  · simp [resolvePosition, hs]
  · simp [resolvePosition, hs]
  · simp [resolvePosition, hs, hd]
  · simp [resolvePosition, hs, hd]

/-- C3 witness: the theorem applied to a screen-space placement at two
different camera translations, to a finite-depth world placement, and to an
infinite-depth world placement. -/
theorem C3_witness :
    resolvePosition 5 6 ⟨0, ⟨1, 1⟩, 3, 4, .finite 2, false, true⟩ = (3, 4)
    ∧ resolvePosition 5 6 ⟨0, ⟨1, 1⟩, 3, 4, .finite 2, false, true⟩
        = resolvePosition 7 8 ⟨0, ⟨1, 1⟩, 3, 4, .finite 2, false, true⟩
    ∧ resolvePosition 5 6 ⟨1, ⟨1, 1⟩, 10, 20, .finite 2, false, false⟩
        = (truncQ (10 - 5 * 2), truncQ (20 - 6 * 2))
    ∧ resolvePosition 5 6 ⟨2, ⟨1, 1⟩, 30, 40, .inf, false, false⟩
        = (truncQ (30 - 5 * 1), truncQ (40 - 6 * 1)) := by
  refine ⟨?_, ?_, ?_, ?_⟩
  · exact ((C3_resolve_position 5 6 7 8 _).1 rfl).1.trans
      (by norm_num [truncQ, Prod.ext_iff])
  · exact ((C3_resolve_position 5 6 7 8 _).1 rfl).2
  · exact (C3_resolve_position 5 6 0 0 _).2.1 2 rfl rfl
  · exact (C3_resolve_position 5 6 0 0 _).2.2 rfl rfl

/-- C2 counterexample: `CollisionPlugin::update` inserts every placement
matched by its query, including a tiled one and a screen-space one — the
claim states neither is ever inserted into the index. -/
theorem C2_counterexample :
    (⟨7, ⟨4, 5⟩, 2, 3, .finite 1, true, false⟩ : Placement).tiled = true
    ∧ (⟨9, ⟨4, 5⟩, 2, 3, .finite 1, false, true⟩ : Placement).screenSpace = true
    ∧ CollisionPlugin.update []
        [⟨7, ⟨4, 5⟩, 2, 3, .finite 1, true, false⟩,
         ⟨9, ⟨4, 5⟩, 2, 3, .finite 1, false, true⟩]
        = [(7, ⟨2, 3, 6, 8⟩), (9, ⟨2, 3, 6, 8⟩)] := by
  refine ⟨rfl, rfl, ?_⟩
  norm_num [CollisionPlugin.update, Bitmap.to_aabb, Aabb2.mk.injEq]

/-- C2 amended: the per-frame rebuild clears all previous entries and
inserts exactly one entry per placement that has a bitmap and a transform —
including tiled and screen-space placements, which the query does not
filter out — keyed by the bounding box of the bitmap's width/height offset
from its world position. -/
theorem C2_amended_rebuild (prev : List (ℕ × Aabb2)) (ps : List Placement)
    (p : Placement) (hmem : p ∈ ps) (hnodup : (ps.map Placement.id).Nodup) :
    CollisionPlugin.update prev ps
      = ps.map (fun q => (q.id, q.bitmap.to_aabb q.x q.y))
    ∧ (p.id, p.bitmap.to_aabb p.x p.y) ∈ CollisionPlugin.update prev ps
    ∧ ((CollisionPlugin.update prev ps).map Prod.fst).count p.id = 1 := by
  refine ⟨rfl, List.mem_map_of_mem _ hmem, ?_⟩
  have hmap : (CollisionPlugin.update prev ps).map Prod.fst = ps.map Placement.id := by
    simp [CollisionPlugin.update, List.map_map, Function.comp]
  rw [hmap]
  exact List.count_eq_one_of_mem hnodup (List.mem_map_of_mem _ hmem)

/-- C2 witness: the amended theorem applied to a one-element placement
list. -/
theorem C2_witness :
    ((CollisionPlugin.update []
        [(⟨7, ⟨4, 5⟩, 2, 3, .finite 1, true, false⟩ : Placement)]).map
      Prod.fst).count 7 = 1 :=
  (C2_amended_rebuild [] _ _ (List.mem_singleton_self _) (by decide)).2.2

/-- C6: the visible set is the deduplicated union of the BVH overlap
results, the tiled ids and the screen-space ids; an id that both overlaps
the camera box and carries a flag appears exactly once in every enumeration
of the set, hence is composited exactly once. -/
theorem C6_visible_set_dedup (overlaps tiledIds screenIds : List ℕ) (n : ℕ) :
    (buildEntities overlaps tiledIds screenIds).Nodup
    ∧ (∀ x, x ∈ buildEntities overlaps tiledIds screenIds ↔
        x ∈ overlaps ∨ x ∈ tiledIds ∨ x ∈ screenIds)
    ∧ (n ∈ overlaps → n ∈ tiledIds ∨ n ∈ screenIds →
        ∀ out : List ℕ, out.Perm (buildEntities overlaps tiledIds screenIds) →
          out.count n = 1) := by
  have hnodup : (buildEntities overlaps tiledIds screenIds).Nodup :=
    foldl_hsInsert_nodup _ _ (foldl_hsInsert_nodup _ _
      (foldl_hsInsert_nodup _ _ List.nodup_nil))
  have hmem : ∀ x, x ∈ buildEntities overlaps tiledIds screenIds ↔
      x ∈ overlaps ∨ x ∈ tiledIds ∨ x ∈ screenIds := by
    intro x
    unfold buildEntities
    rw [mem_foldl_hsInsert, mem_foldl_hsInsert, mem_foldl_hsInsert]
    simp [or_assoc]
  refine ⟨hnodup, hmem, fun hov _ out hperm => ?_⟩
  exact List.count_eq_one_of_mem (hperm.nodup_iff.mpr hnodup)
    (hperm.mem_iff.mpr ((hmem n).mpr (Or.inl hov)))

/-- C6 witness: the theorem applied to a concrete id that both overlaps the
camera box and is screen-space. -/
theorem C6_witness : ([5] : List ℕ).count 5 = 1 :=
  (C6_visible_set_dedup [5] [] [5] 5).2.2 (by decide) (Or.inr (by decide)) [5]
    (by decide)

/-! Pixel blending and fades (`src/engine/camera.rs` and the spec's Raster
section). -/

/-- A premultiplied RGBA8 pixel: four 8-bit channels — red, green, blue,
alpha — with the colour channels already scaled by the alpha channel. -/
structure Rgba8p where
  r : ℕ
  g : ℕ
  b : ℕ
  a : ℕ
deriving DecidableEq

/-- Modelled from the spec: the `pix` crate's `SrcOver` premultiplied
composite invoked by `Raster::composite_raster` (`src/engine/bitmap.rs`
lines 125 and 129) is not part of this repository; the spec defines the
per-pixel blend as exact 8-bit fixed-point arithmetic,
`dst = src + dst*(255-src.a)/255` per channel. -/
def srcOver (src dst : Rgba8p) : Rgba8p :=
  ⟨src.r + dst.r * (255 - src.a) / 255,
   src.g + dst.g * (255 - src.a) / 255,
   src.b + dst.b * (255 - src.a) / 255,
   src.a + dst.a * (255 - src.a) / 255⟩

/-- Modelled from the spec: `pix::chan::Ch8::from(f32)` (the `pix` crate is
not part of this repository), the conversion of a unit-interval float into
an 8-bit fixed-point channel: clamp to the unit interval and scale to
`0..=255` with rounding. -/
def ch8OfRat (q : ℚ) : ℕ := (⌊max 0 (min 1 q) * 255 + 1 / 2⌋).toNat

/-- Modelled from the spec: `pix::chan::Ch8::lerp` (called at
`src/engine/camera.rs` line 164; the implementation lives in the `pix`
crate), linear interpolation performed in the 8-bit fixed-point channel
domain as the spec requires. -/
def ch8Lerp (a b t : ℕ) : ℕ := (a * (255 - t) + b * t) / 255

/-- The fade alpha computed by `FadePlugin::update` (`src/engine/camera.rs`
lines 163-164):
`Ch8::from(fade.from).lerp(Ch8::from(fade.to), Ch8::from(fade.timer.percent()))`. -/
def fadeAlpha (fadeFrom fadeTo percent : ℚ) : ℕ :=
  ch8Lerp (ch8OfRat fadeFrom) (ch8OfRat fadeTo) (ch8OfRat percent)

/-- Initial raster contents of a fade placement: `Bitmap::with_color` or
`Bitmap::with_clear` (`src/engine/camera.rs` lines 99 and 121). -/
inductive RasterInit where
  | solid (color : Rgba8p)
  | clear
deriving DecidableEq

/-- The `FadeBundle` produced by `Camera::fade_in` / `Camera::fade_out`
(`src/engine/camera.rs` lines 47-53 and 98-137): fade endpoints and
duration, the initial raster, the `ScreenSpace` marker (always part of the
bundle) and the transform depth. -/
structure FadeBundle where
  fadeFrom : ℚ
  fadeTo : ℚ
  duration : ℚ
  baseColor : Rgba8p
  width : ℕ
  height : ℕ
  initRaster : RasterInit
  screenSpace : Bool
  depth : Depth
deriving DecidableEq

/-- `Camera::fade_in` (`src/engine/camera.rs` lines 98-115). -/
def Camera.fade_in (timeSeconds : ℚ) (width height : ℕ) (color : Rgba8p) :
    FadeBundle :=
  ⟨1, 0, timeSeconds, color, width, height, .solid color, true, .inf⟩

/-- `Camera::fade_out` (`src/engine/camera.rs` lines 120-137). -/
def Camera.fade_out (timeSeconds : ℚ) (width height : ℕ) (color : Rgba8p) :
    FadeBundle :=
  ⟨0, 1, timeSeconds, color, width, height, .clear, true, .inf⟩

/-- The `Fade` component state (`src/engine/camera.rs` lines 39-45).  The
bevy `Timer` (mode `Once`) is modelled from the spec as its elapsed time
and duration: `tick` adds the frame delta clamping at the duration,
`finished` is `elapsed ≥ duration`, `percent` is `elapsed / duration`. -/
structure Fade where
  elapsed : ℚ
  duration : ℚ
  fadeFrom : ℚ
  fadeTo : ℚ
deriving DecidableEq

/-- Modelled from the spec: `bevy::Timer::tick` for a `Once` timer advances
`elapsed` by the frame delta, clamping at `duration`. -/
def timerTick (f : Fade) (delta : ℚ) : Fade :=
  { f with elapsed := min (f.elapsed + delta) f.duration }

/-- Modelled from the spec: `bevy::Timer::finished` for a `Once` timer:
true once `elapsed ≥ duration`. -/
def timerFinished (f : Fade) : Bool := decide (f.duration ≤ f.elapsed)

/-- Modelled from the spec: `bevy::Timer::percent = elapsed / duration`. -/
def timerPercent (f : Fade) : ℚ := f.elapsed / f.duration

/-- What one `FadePlugin::update` visit does to one fade entity: either the
entity is despawned (removal signalled to the external scene layer) or its
bitmap raster is replaced by a solid colour whose channels were multiplied
by the interpolated alpha. -/
inductive FadeAction where
  | removeEntity
  | applyColor (alpha : ℕ)
deriving DecidableEq

/-- One `FadePlugin::update` step for one fade entity
(`src/engine/camera.rs` lines 146-171): a finished timer despawns the
entity and applies nothing (`continue`); otherwise the timer is ticked and
the bitmap is recoloured with the freshly interpolated alpha. -/
def fadeUpdateStep (f : Fade) (delta : ℚ) : Option Fade × FadeAction :=
  if timerFinished f then (none, .removeEntity)
  else
    let f' := timerTick f delta
    (some f', .applyColor (fadeAlpha f.fadeFrom f.fadeTo (timerPercent f')))

/-- The trace of actions over successive frames with the given deltas; a
despawned entity no longer matches the query and produces no actions. -/
def fadeRun : Option Fade → List ℚ → List FadeAction
  | _, [] => []
  | none, _ :: ds => fadeRun none ds
  | some f, d :: ds => ((fadeUpdateStep f d).2) :: fadeRun (fadeUpdateStep f d).1 ds

theorem fadeRun_none (ds : List ℚ) : fadeRun none ds = [] := by
  induction ds with
  | nil => rfl
  | cons d ds ih => rw [fadeRun, ih]

/-! Claims C7, C8, C9. -/

/-- C7: the per-pixel premultiplied source-over blend
`dst = src + dst*(255-src.a)/255` leaves every destination pixel unchanged
for a fully transparent source (alpha 0, premultiplied channels 0) and
fully replaces every destination pixel it covers for a fully opaque source
(alpha 255). -/
theorem C7_src_over_laws :
    (∀ dst : Rgba8p, srcOver ⟨0, 0, 0, 0⟩ dst = dst)
    ∧ ∀ (dst : Rgba8p) (r g b : ℕ), srcOver ⟨r, g, b, 255⟩ dst = ⟨r, g, b, 255⟩ := by
  constructor
  · intro dst
    cases dst with
    | mk r g b a =>
      simp only [srcOver, Rgba8p.mk.injEq]
      refine ⟨?_, ?_, ?_, ?_⟩ <;> omega
  · intro dst r g b
    cases dst with
    | mk r' g' b' a' =>
      simp only [srcOver, Rgba8p.mk.injEq]
      refine ⟨?_, ?_, ?_, ?_⟩ <;> omega

/-- C8: the fade alpha is an 8-bit fixed-point lerp of the from/to
endpoints by the elapsed fraction; with `from = 1, to = 0` at
`elapsed = duration/2` it equals `127/255`, within the 8-bit rounding
tolerance `1/255` of `0.5`; `fade_in` is initialised with
`from = 1, to = 0` starting from the solid base colour, and `fade_out` with
`from = 0, to = 1` starting fully transparent. -/
theorem C8_fade_alpha (d : ℚ) (hd : 0 < d) (w h : ℕ) (color : Rgba8p) :
    fadeAlpha 1 0 (d / 2 / d) = 127
    ∧ |(fadeAlpha 1 0 (d / 2 / d) : ℚ) / 255 - 1 / 2| ≤ 1 / 255
    ∧ Camera.fade_in d w h color =
        ⟨1, 0, d, color, w, h, .solid color, true, .inf⟩
    ∧ Camera.fade_out d w h color =
        ⟨0, 1, d, color, w, h, .clear, true, .inf⟩ := by
  have hhalf : d / 2 / d = 1 / 2 := by
    field_simp
    ring
  have h255 : ch8OfRat 1 = 255 := by
    rw [ch8OfRat, min_self, max_eq_right (by norm_num : (0 : ℚ) ≤ 1)]
    norm_num
    rfl
  have h0 : ch8OfRat 0 = 0 := by
    rw [ch8OfRat, min_eq_right (by norm_num : (0 : ℚ) ≤ 1), max_self]
    norm_num
  have h128 : ch8OfRat (1 / 2) = 128 := by
    rw [ch8OfRat, min_eq_right (by norm_num : (1 : ℚ) / 2 ≤ 1),
      max_eq_right (by norm_num : (0 : ℚ) ≤ 1 / 2)]
    norm_num
    rfl
  have halpha : fadeAlpha 1 0 (d / 2 / d) = 127 := by
    rw [hhalf, fadeAlpha, h255, h0, h128]
    norm_num [ch8Lerp]
  refine ⟨halpha, ?_, rfl, rfl⟩
  rw [halpha, abs_le]
  constructor <;> norm_num

/-- C8 witness: the theorem applied at a duration of 2 seconds and a solid
red base colour. -/
theorem C8_witness :
    fadeAlpha 1 0 ((2 : ℚ) / 2 / 2) = 127
    ∧ Camera.fade_in 2 4 4 ⟨255, 0, 0, 255⟩ =
        ⟨1, 0, 2, ⟨255, 0, 0, 255⟩, 4, 4, .solid ⟨255, 0, 0, 255⟩, true, .inf⟩ :=
  ⟨(C8_fade_alpha 2 (by norm_num) 4 4 ⟨255, 0, 0, 255⟩).1,
   (C8_fade_alpha 2 (by norm_num) 4 4 ⟨255, 0, 0, 255⟩).2.2.1⟩

theorem fadeRun_count_remove (f : Fade) (ds : List ℚ) :
    (fadeRun (some f) ds).count FadeAction.removeEntity ≤ 1 := by
  induction ds generalizing f with
  | nil => simp [fadeRun]
  | cons d ds ih =>
    rw [fadeRun]
    by_cases hfin : f.duration ≤ f.elapsed
    · rw [show fadeUpdateStep f d = (none, .removeEntity) from by
        simp [fadeUpdateStep, timerFinished, hfin]]
      rw [fadeRun_none]
      simp
    · have hstep : fadeUpdateStep f d = (some (timerTick f d),
          .applyColor (fadeAlpha f.fadeFrom f.fadeTo (timerPercent (timerTick f d)))) := by
        simp [fadeUpdateStep, timerFinished, hfin]
      rw [hstep]
      have hcount := ih (timerTick f d)
      simp only [List.count_cons]
      simpa using hcount

theorem fadeRun_remove_last (f : Fade) (ds : List ℚ) :
    ∀ pre post, fadeRun (some f) ds = pre ++ FadeAction.removeEntity :: post →
      post = [] := by
  induction ds generalizing f with
  | nil =>
    intro pre post h
    rw [fadeRun] at h
    exact absurd h (by simp)
  | cons d ds ih =>
    intro pre post h
    rw [fadeRun] at h
    by_cases hfin : f.duration ≤ f.elapsed
    · rw [show fadeUpdateStep f d = (none, .removeEntity) from by
        simp [fadeUpdateStep, timerFinished, hfin], fadeRun_none] at h
      cases pre with
      | nil =>
        rw [List.nil_append, List.cons.injEq] at h
        exact h.2.symm
      | cons a pre' =>
        rw [List.cons_append, List.cons.injEq] at h
        exact absurd h.2.symm (by simp)
    · have hstep : fadeUpdateStep f d = (some (timerTick f d),
          .applyColor (fadeAlpha f.fadeFrom f.fadeTo (timerPercent (timerTick f d)))) := by
        simp [fadeUpdateStep, timerFinished, hfin]
      rw [hstep] at h
      cases pre with
      | nil =>
        rw [List.nil_append, List.cons.injEq] at h
        exact absurd h.1 (by simp)
      | cons a pre' =>
        rw [List.cons_append, List.cons.injEq] at h
        exact ih (timerTick f d) pre' post h.2

/-- C9: one `FadePlugin::update` step signals removal of the fade's owning
placement exactly when the timer has already reached its duration (so never
while `elapsed < duration`); over any sequence of frame deltas removal is
signalled at most once; and no colour is ever applied after removal is
signalled (a removal is always the last action of the trace). -/
theorem C9_fade_removal (f : Fade) (ds : List ℚ) (d : ℚ) :
    ((fadeUpdateStep f d).2 = .removeEntity ↔ f.duration ≤ f.elapsed)
    ∧ (f.duration ≤ f.elapsed → fadeUpdateStep f d = (none, .removeEntity))
    ∧ (fadeRun (some f) ds).count FadeAction.removeEntity ≤ 1
    ∧ ∀ pre post, fadeRun (some f) ds = pre ++ FadeAction.removeEntity :: post →
        post = [] := by
  refine ⟨?_, ?_, fadeRun_count_remove f ds, fadeRun_remove_last f ds⟩
  · by_cases hfin : f.duration ≤ f.elapsed <;>
      simp [fadeUpdateStep, timerFinished, hfin]
  · intro hfin
    simp [fadeUpdateStep, timerFinished, hfin]

/-- C9 witness: the theorem applied to a fade whose timer has exactly
reached its duration. -/
theorem C9_witness :
    fadeUpdateStep ⟨2, 2, 1, 0⟩ 1 = (none, FadeAction.removeEntity)
    ∧ (fadeRun (some ⟨2, 2, 1, 0⟩) [1, 1]).count FadeAction.removeEntity ≤ 1 :=
  ⟨(C9_fade_removal ⟨2, 2, 1, 0⟩ [1, 1] 1).2.1 (by norm_num),
   (C9_fade_removal ⟨2, 2, 1, 0⟩ [1, 1] 1).2.2.1⟩

/-! Claim C1: the depth sort. -/

/-- First of two equal-depth placements (depth `1.0`). -/
def pC1a : Placement := ⟨0, ⟨1, 1⟩, 0, 0, .finite 1, false, false⟩

/-- Second of two equal-depth placements (depth `1.0`). -/
def pC1b : Placement := ⟨1, ⟨1, 1⟩, 0, 0, .finite 1, false, false⟩

/-- A placement with depth `0.5`. -/
def pC1s : Placement := ⟨2, ⟨1, 1⟩, 0, 0, .finite (mkRat 1 2), false, false⟩

theorem zKey_pC1a : zKey pC1a.depth = 1000 := by
  show zKey (.finite 1) = 1000
  norm_num [zKey, truncQ]

theorem zKey_pC1b : zKey pC1b.depth = 1000 := by
  show zKey (.finite 1) = 1000
  norm_num [zKey, truncQ]

theorem zKey_pC1s : zKey pC1s.depth = 500 := by
  show zKey (.finite (mkRat 1 2)) = 500
  have hval : (mkRat 1 2 : ℚ) = 1 / 2 := by norm_num [Rat.mkRat_eq_div]
  simp only [zKey, hval]
  norm_num [truncQ]

/-- C1 counterexample: the contract of `sort_unstable_by_key` — a
permutation of the input ordered by the key, which is all line 100 of
`src/engine/bitmap.rs` guarantees — admits an output that reverses two
equal-depth placements, so the sort is not stable for every input sequence
as the claim states. -/
theorem C1_counterexample :
    sortUnstablePost [pC1a, pC1b] [pC1b, pC1a]
    ∧ zKey pC1a.depth = zKey pC1b.depth
    ∧ before pC1a pC1b [pC1a, pC1b]
    ∧ ¬ before pC1a pC1b [pC1b, pC1a] := by
  refine ⟨⟨List.Perm.swap pC1a pC1b [], ?_⟩, rfl, by decide, by decide⟩
  refine List.pairwise_cons.mpr ⟨?_, List.pairwise_singleton _ _⟩
  intro b hb
  rcases List.mem_singleton.mp hb
  exact le_of_eq rfl

/-- C1 amended: the depth sort orders the visible set by the integer key
`(depth * 1000.0) as i64` ascending, as a permutation of its input, but it
is `sort_unstable_by_key`, whose contract does not guarantee stability;
placements with equal keys may appear in either order.  For three
placements with depths `1.0, 1.0, 0.5`, every contract-satisfying output
places the `0.5` placement first, followed by the two `1.0` placements in
one of the two orders. -/
theorem C1_amended_sort_contract (out : List Placement)
    (hpost : sortUnstablePost [pC1a, pC1b, pC1s] out) :
    out = [pC1s, pC1a, pC1b] ∨ out = [pC1s, pC1b, pC1a] := by
  obtain ⟨hperm, hsort⟩ := hpost
  have hlen : out.length = 3 := by rw [hperm.length_eq]; rfl
  obtain ⟨u, v, w, rfl⟩ : ∃ u v w, out = [u, v, w] := by
    match out, hlen with
    | [u, v, w], _ => exact ⟨u, v, w, rfl⟩
  have hnodup : ([u, v, w] : List Placement).Nodup :=
    hperm.nodup_iff.mpr (by decide)
  have huv : u ≠ v := by
    intro h
    exact (List.nodup_cons.mp hnodup).1 (h ▸ List.mem_cons_self _ _)
  have huw : u ≠ w := by
    intro h
    exact (List.nodup_cons.mp hnodup).1 (h ▸ List.mem_cons_of_mem _ (List.mem_singleton_self _))
  have hkuv : zKey u.depth ≤ zKey v.depth :=
    (List.pairwise_cons.mp hsort).1 v (List.mem_cons_self _ _)
  have hkuw : zKey u.depth ≤ zKey w.depth :=
    (List.pairwise_cons.mp hsort).1 w (List.mem_cons_of_mem _ (List.mem_singleton_self _))
  have humem : u = pC1a ∨ u = pC1b ∨ u = pC1s := by
    simpa using hperm.subset (List.mem_cons_self u [v, w])
  have hsmem : pC1s = u ∨ pC1s = v ∨ pC1s = w := by
    simpa using hperm.mem_iff.mpr (show pC1s ∈ [pC1a, pC1b, pC1s] by simp)
  have hukey : u = pC1s := by
    rcases hsmem with h | h | h
    · exact h.symm
    · rcases humem with rfl | rfl | rfl
      · rw [← h, zKey_pC1a, zKey_pC1s] at hkuv
        omega
      · rw [← h, zKey_pC1b, zKey_pC1s] at hkuv
        omega
      · exact absurd h huv
    · rcases humem with rfl | rfl | rfl
      · rw [← h, zKey_pC1a, zKey_pC1s] at hkuw
        omega
      · rw [← h, zKey_pC1b, zKey_pC1s] at hkuw
        omega
      · exact absurd h huw
  subst hukey
  have hrot : ([pC1a, pC1b, pC1s] : List Placement).Perm [pC1s, pC1a, pC1b] := by
    decide
  have htail : ([v, w] : List Placement).Perm [pC1a, pC1b] :=
    (hperm.trans hrot).cons_inv
  have hvmem : v = pC1a ∨ v = pC1b := by
    simpa using htail.subset (List.mem_cons_self v [w])
  rcases hvmem with rfl | rfl
  · left
    have hw : ([w] : List Placement).Perm [pC1b] := htail.cons_inv
    rw [List.perm_singleton.mp hw]
  · right
    have hswap : ([pC1a, pC1b] : List Placement).Perm [pC1b, pC1a] := by decide
    have hw : ([w] : List Placement).Perm [pC1a] := (htail.trans hswap).cons_inv
    rw [List.perm_singleton.mp hw]

/-- C1 witness: the amended theorem applied to the output
`[0.5-placement, first 1.0-placement, second 1.0-placement]`, which
satisfies the sort contract. -/
theorem C1_witness :
    ([pC1s, pC1a, pC1b] : List Placement) = [pC1s, pC1a, pC1b]
    ∨ ([pC1s, pC1a, pC1b] : List Placement) = [pC1s, pC1b, pC1a] :=
  C1_amended_sort_contract [pC1s, pC1a, pC1b]
    ⟨by decide, by
      refine List.pairwise_cons.mpr ⟨?_, List.pairwise_cons.mpr ⟨?_, List.pairwise_singleton _ _⟩⟩
      · intro b hb
        rcases List.mem_cons.mp hb with rfl | hb
        · rw [zKey_pC1s, zKey_pC1a]
          omega
        · rcases List.mem_singleton.mp hb
          rw [zKey_pC1s, zKey_pC1b]
          omega
      · intro b hb
        rcases List.mem_singleton.mp hb
        exact le_of_eq rfl⟩
